import Mathlib

/-!
Verification of the fretboard-visualization core: the pitch-to-position
mapper (`guitarUtils`), the time-indexed derived state of the application
shell (`App`), and the note-trail presentation state machine of the
fretboard renderer (`Fretboard`).

Numeric conventions: playback times and bend values (JS `number`, seconds
resp. semitone offsets) are embedded as `Rat`; MIDI pitches, frets and
center-fret values (integral in all data) as `Int`; wall-clock instants
(`Date.now()`, milliseconds) as `Int`.
-/

namespace GuitarUtils

def NUM_STRINGS : Nat := 6

def MAX_FRET : Int := 22

/-- Open-string MIDI pitches, index 0 = low E ... index 5 = high E. -/
def TUNING : List Int := [40, 45, 50, 55, 59, 64]

/-- The `Note` record of `guitarUtils`: a concrete (string, fret) position
for a pitch. -/
structure Note where
  string : Nat
  fret : Int
  pitch : Int
deriving DecidableEq, Repr

/-- The `TUNING.forEach` loop body of `getPossiblePositions`: walk the
open-string pitches carrying the string index, keeping the positions whose
fret lands in [0, MAX_FRET]. -/
def possibleAux (pitch : Int) : Nat → List Int → List Note
  | _, [] => []
  | stringIdx, openPitch :: rest =>
    let fret := pitch - openPitch
    if 0 ≤ fret ∧ fret ≤ MAX_FRET then
      ⟨stringIdx, fret, pitch⟩ :: possibleAux pitch (stringIdx + 1) rest
    else
      possibleAux pitch (stringIdx + 1) rest

def getPossiblePositions (pitch : Int) : List Note :=
  possibleAux pitch 0 TUNING

/-- The reducer of `getBestPosition`: keep `curr` only when strictly closer
to `centerFret` than `prev`. -/
def closerPos (centerFret : Int) (prev curr : Note) : Note :=
  if |curr.fret - centerFret| < |prev.fret - centerFret| then curr else prev

/-- `positions.reduce(...)` with no initial value: first element seeds the
fold over the tail; empty input yields `null` (here `none`). -/
def getBestPosition (pitch centerFret : Int) : Option Note :=
  match getPossiblePositions pitch with
  | [] => none
  | p :: rest => some (rest.foldl (closerPos centerFret) p)

end GuitarUtils

namespace App

/-- The `Note` interface of the application shell (a transcribed note). -/
structure Note where
  start : Rat
  end_ : Rat
  pitch : Int
  velocity : Rat
  bend_value : Option Rat
  string : Option Nat
  fret : Option Int
  is_vibrato : Option Bool
  vibrato_depth : Option Rat
deriving DecidableEq, Repr

structure HandPosition where
  time : Rat
  center_fret : Int
deriving DecidableEq, Repr

structure BendSample where
  time : Rat
  pitch : Rat
deriving DecidableEq, Repr

structure AnalysisResult where
  duration : Rat
  notes : List Note
  hand_positions : List HandPosition
  pitch_bends : Option (List BendSample)
deriving DecidableEq, Repr

/-- The `currentCenterFret` memo: 2 before any payload is loaded; in
automatic mode the `center_fret` of the last hand position with
`time ≤ currentTime` (0 if none); in manual mode the operator value. -/
def currentCenterFret (result : Option AnalysisResult) (isAutoHand : Bool)
    (manualCenterFret : Int) (currentTime : Rat) : Int :=
  match result with
  | none => 2
  | some r =>
    if isAutoHand then
      let relevant := r.hand_positions.filter (fun p => decide (p.time ≤ currentTime))
      match relevant.getLast? with
      | some pos => pos.center_fret
      | none => 0
    else
      manualCenterFret

/-- The time-window filter of the `activeNotes` memo:
`n.start <= currentTime && n.end > currentTime`. -/
def notesInTime (notes : List Note) (currentTime : Rat) : List Note :=
  notes.filter (fun n => decide (n.start ≤ currentTime) && decide (n.end_ > currentTime))

/-- The per-note body of the `activeNotes` memo: keep the backend fingering
by default; recompute via `getBestPosition` when auto-hand is off or no
explicit string/fret was supplied; when `getBestPosition` yields `null` the
original (possibly missing) fingering is left in place. -/
def resolveNote (isAutoHand : Bool) (currentCenter manualCenterFret : Int)
    (n : Note) : Note :=
  if !isAutoHand || n.string.isNone || n.fret.isNone then
    let targetCenter := if isAutoHand then currentCenter else manualCenterFret
    match GuitarUtils.getBestPosition n.pitch targetCenter with
    | some bestPos => { n with string := some bestPos.string, fret := some bestPos.fret }
    | none => n
  else
    n

/-- The `activeNotes` memo: empty before a payload is loaded; otherwise the
time-windowed notes, each resolved to a final fingering. -/
def activeNotes (result : Option AnalysisResult) (currentTime : Rat)
    (isAutoHand : Bool) (manualCenterFret : Int) : List Note :=
  match result with
  | none => []
  | some r =>
    (notesInTime r.notes currentTime).map
      (resolveNote isAutoHand
        (currentCenterFret (some r) isAutoHand manualCenterFret currentTime)
        manualCenterFret)

/-- The `currentBend` memo: 0 when no payload or no `pitch_bends` list;
otherwise the `pitch` of the last bend sample with `time ≤ currentTime`,
0 when none qualifies. -/
def currentBend (result : Option AnalysisResult) (currentTime : Rat) : Rat :=
  match result with
  | none => 0
  | some r =>
    match r.pitch_bends with
    | none => 0
    | some pitch_bends =>
      let relevantBends := pitch_bends.filter (fun b => decide (b.time ≤ currentTime))
      match relevantBends.getLast? with
      | some bend => bend.pitch
      | none => 0

end App

namespace Fretboard

/-- An entry of the `renderedNotes` trail map. The stored object is the JS
spread of the resolved position, the note record (whose optional
`string`/`fret` properties overwrite the position's, being spread after
it), and the presentation flags; `fadeStartTime` is a property only present
on entries that have started fading, hence an `Option`. -/
structure RenderedNote where
  string : Option Nat
  fret : Option Int
  pitch : Int
  velocity : Rat
  bend_value : Option Rat
  is_vibrato : Option Bool
  vibrato_depth : Option Rat
  isFading : Bool
  fadeStartTime : Option Int
deriving DecidableEq, Repr

/-- The trail map is keyed by the string-fret pair (the JS key is the
string `pos.string + "-" + pos.fret`, an injective encoding of the pair). -/
abbrev Key : Type := Nat × Int

/-- The JS object holding the trail entries, as an association list. -/
abbrev RMap : Type := List (Key × RenderedNote)

/-- Property access `m[k]` on the trail object. -/
def lookupKey : RMap → Key → Option RenderedNote
  | [], _ => none
  | kv :: rest, k => if kv.1 = k then some kv.2 else lookupKey rest k

/-- Property assignment `m[k] = v` on the trail object (overwrite or add). -/
def insertKey (m : RMap) (k : Key) (v : RenderedNote) : RMap :=
  if (lookupKey m k).isSome then
    m.map (fun kv => if kv.1 = k then (k, v) else kv)
  else
    m ++ [(k, v)]

/-- The object stored by `currentActivePositions`: spread of pos, note and
`isFading: false`; the note's fields win for the overlapping keys and no
`fadeStartTime` property exists yet. -/
def mkRendered (note : App.Note) : RenderedNote :=
  { string := note.string, fret := note.fret, pitch := note.pitch,
    velocity := note.velocity, bend_value := note.bend_value,
    is_vibrato := note.is_vibrato, vibrato_depth := note.vibrato_depth,
    isFading := false, fadeStartTime := none }

/-- One iteration of the `for (const note of activeNotes)` loop of the
`currentActivePositions` memo. -/
def capStep (centerFret : Int) (filterOutOfRange : Bool) (m : RMap)
    (note : App.Note) : RMap :=
  let pos : Option GuitarUtils.Note :=
    match note.string, note.fret with
    | some s, some f => some ⟨s, f, note.pitch⟩
    | _, _ => GuitarUtils.getBestPosition note.pitch centerFret
  match pos with
  | none => m
  | some p =>
    let isExplicit := note.string.isSome
    let shouldRender :=
      if isExplicit then true
      else
        !filterOutOfRange ||
          (decide (centerFret - 1 ≤ p.fret) && decide (p.fret ≤ centerFret + 5))
    if shouldRender then insertKey m (p.string, p.fret) (mkRendered note) else m

/-- The `currentActivePositions` memo: fold the loop body over the active
notes starting from the empty object. -/
def currentActivePositions (activeNotes : List App.Note) (centerFret : Int)
    (filterOutOfRange : Bool) : RMap :=
  activeNotes.foldl (capStep centerFret filterOutOfRange) []

/-- Steps 1 and 2 of the reconciliation effect, per key of the previous
map: an entry still active is refreshed from the fresh data with
`isFading: false`; an entry that disappeared starts fading now unless it
already was. -/
def reconcileEntry (cur : RMap) (now : Int) (k : Key) (e : RenderedNote) :
    RenderedNote :=
  match lookupKey cur k with
  | some ce => { ce with isFading := false }
  | none =>
    if e.isFading then e
    else { e with isFading := true, fadeStartTime := some now }

/-- The step-3 removal test: fading for more than 500 ms. An entry without
a `fadeStartTime` property is never expired (`now - undefined` is NaN and
every NaN comparison is false). -/
def expired (now : Int) (e : RenderedNote) : Bool :=
  e.isFading &&
    (match e.fadeStartTime with
     | some fs => decide (now - fs > 500)
     | none => false)

/-- The reconciliation effect on `renderedNotes` (one atomic functional
update): previous keys are refreshed or marked fading (steps 1-2 minus the
additions), the active keys not previously present are added (rest of step
2), and entries fading for more than 500 ms are dropped (step 3). -/
def reconcile (prev cur : RMap) (now : Int) : RMap :=
  ((prev.map (fun kv : Key × RenderedNote => (kv.1, reconcileEntry cur now kv.1 kv.2))) ++
      ((cur.filter (fun kv : Key × RenderedNote => (lookupKey prev kv.1).isNone)).map
        (fun kv : Key × RenderedNote => (kv.1, { kv.2 with isFading := false })))).filter
    (fun kv : Key × RenderedNote => !expired now kv.2)

/-- The body of the standalone 100 ms `setInterval` sweep: drop every entry
fading for more than 500 ms. -/
def sweep (prev : RMap) (now : Int) : RMap :=
  prev.filter (fun kv => !expired now kv.2)

/-- The guard installing the sweep interval:
`Object.values(renderedNotes).some(n => n.isFading)`. -/
def hasFading (m : RMap) : Bool :=
  m.any (fun kv => kv.2.isFading)

/-- The per-marker bend value: an active marker tracks the live overlay,
a fading one freezes at its own record's `bend_value || 0`. -/
def dynamicBend (note : RenderedNote) (curBend : Rat) : Rat :=
  if !note.isFading then curBend else note.bend_value.getD 0

/-- A wall-clock event mutating the trail map: a reconciliation tick
(carrying the fresh active-position map) or a firing of the sweep
interval. -/
inductive FEvent where
  | tick (cur : RMap) (now : Int)
  | sweepTick (now : Int)

def FEvent.time : FEvent → Int
  | .tick _ now => now
  | .sweepTick now => now

def applyEvent (m : RMap) : FEvent → RMap
  | .tick cur now => reconcile m cur now
  | .sweepTick now => sweep m now

def runEvents (m : RMap) (evs : List FEvent) : RMap :=
  evs.foldl applyEvent m

/-- An event leaves the key `k` out of play: a tick whose fresh active set
does not contain `k` (and is well-formed, i.e. duplicate-free keys), or any
sweep firing. -/
def evAvoids (k : Key) : FEvent → Prop
  | .tick cur _ => lookupKey cur k = none ∧ (cur.map Prod.fst).Nodup
  | .sweepTick _ => True

end Fretboard

/-!
Concrete probe data used to evaluate the definitions at explicit inputs.
-/

/-- A trail entry that has been fading since wall-clock instant 0. -/
def fadingProbe : Fretboard.RenderedNote :=
  { string := some 0, fret := some 0, pitch := 50, velocity := 1, bend_value := none,
    is_vibrato := none, vibrato_depth := none, isFading := true, fadeStartTime := some 0 }

/-- A note with an explicit backend fingering (string 1, fret 2). -/
def probeNote : App.Note :=
  { start := 0, end_ := 1, pitch := 45, velocity := 1, bend_value := none,
    string := some 1, fret := some 2, is_vibrato := none, vibrato_depth := none }

/-- A sounding note without an explicit fingering (pitch 45 is reachable). -/
def plainNote : App.Note :=
  { start := 0, end_ := 2, pitch := 45, velocity := 1, bend_value := none,
    string := none, fret := none, is_vibrato := none, vibrato_depth := none }

/-- A sounding note with an explicit fingering (string 5, fret 7). -/
def backedNote : App.Note :=
  { start := 0, end_ := 2, pitch := 45, velocity := 1, bend_value := none,
    string := some 5, fret := some 7, is_vibrato := none, vibrato_depth := none }

/-- A payload holding the two notes above and no hand positions. -/
def twoNoteResult : App.AnalysisResult :=
  { duration := 2, notes := [plainNote, backedNote], hand_positions := [], pitch_bends := none }

/-- A sounding note with an unreachable pitch (100 exceeds 64 + 22) and no
explicit fingering. -/
def unreachableNote : App.Note :=
  { start := 0, end_ := 10, pitch := 100, velocity := 1, bend_value := none,
    string := none, fret := none, is_vibrato := none, vibrato_depth := none }

/-- A payload with one hand-position sample (time 1, fret 5) and one bend
sample (time 1, pitch 1/2). -/
def sampleResult : App.AnalysisResult :=
  { duration := 3, notes := [], hand_positions := [{ time := 1, center_fret := 5 }],
    pitch_bends := some [{ time := 1, pitch := mkRat 1 2 }] }

/-- A payload without a pitch_bends list. -/
def bendlessResult : App.AnalysisResult :=
  { duration := 3, notes := [], hand_positions := [], pitch_bends := none }

/-- A non-fading rendered marker carrying a recorded bend value. -/
def activeMarker : Fretboard.RenderedNote :=
  { string := some 0, fret := some 0, pitch := 50, velocity := 1,
    bend_value := some (mkRat 1 4), is_vibrato := none, vibrato_depth := none,
    isFading := false, fadeStartTime := none }

/-- A fading rendered marker carrying a recorded bend value. -/
def fadingMarker : Fretboard.RenderedNote :=
  { activeMarker with isFading := true, fadeStartTime := some 0 }

/-- A fading rendered marker whose record carries no bend value. -/
def fadingBareMarker : Fretboard.RenderedNote :=
  { fadingMarker with bend_value := none }

namespace GuitarUtils

theorem possibleAux_cons (pitch : Int) (i : Nat) (o : Int) (rest : List Int) :
    possibleAux pitch i (o :: rest) =
      if 0 ≤ pitch - o ∧ pitch - o ≤ MAX_FRET then
        ⟨i, pitch - o, pitch⟩ :: possibleAux pitch (i + 1) rest
      else
        possibleAux pitch (i + 1) rest := rfl

theorem mem_possibleAux (pitch : Int) :
    ∀ (l : List Int) (i : Nat) (x : Note),
      x ∈ possibleAux pitch i l ↔
        ∃ j, ∃ hj : j < l.length,
          x = ⟨i + j, pitch - l.get ⟨j, hj⟩, pitch⟩ ∧
          0 ≤ pitch - l.get ⟨j, hj⟩ ∧ pitch - l.get ⟨j, hj⟩ ≤ MAX_FRET := by
  intro l
  induction l with
  | nil =>
    intro i x
    simp [possibleAux]
  | cons o rest ih =>
    intro i x
    by_cases hcond : 0 ≤ pitch - o ∧ pitch - o ≤ MAX_FRET
    · rw [possibleAux_cons, if_pos hcond, List.mem_cons, ih]
      constructor
      · rintro (rfl | ⟨j, hj, rfl, h0, h1⟩)
        · exact ⟨0, by simp, by simp, by simpa using hcond.1, by simpa using hcond.2⟩
        · exact ⟨j + 1, by simpa using hj, by simp [Nat.add_assoc, Nat.add_comm 1 j],
            by simpa using h0, by simpa using h1⟩
      · rintro ⟨j, hj, rfl, h0, h1⟩
        cases j with
        | zero => exact Or.inl (by simp)
        | succ j =>
          refine Or.inr ⟨j, by simpa using hj, by simp [Nat.add_assoc, Nat.add_comm 1 j],
            by simpa using h0, by simpa using h1⟩
    · rw [possibleAux_cons, if_neg hcond, ih]
      constructor
      · rintro ⟨j, hj, rfl, h0, h1⟩
        exact ⟨j + 1, by simpa using hj, by simp [Nat.add_assoc, Nat.add_comm 1 j],
          by simpa using h0, by simpa using h1⟩
      · rintro ⟨j, hj, rfl, h0, h1⟩
        cases j with
        | zero =>
          exact absurd ⟨by simpa using h0, by simpa using h1⟩ hcond
        | succ j =>
          exact ⟨j, by simpa using hj, by simp [Nat.add_assoc, Nat.add_comm 1 j],
            by simpa using h0, by simpa using h1⟩

theorem possibleAux_string_bound (pitch : Int) :
    ∀ (l : List Int) (i : Nat),
      (∀ x ∈ possibleAux pitch i l, i ≤ x.string) ∧
      (possibleAux pitch i l).Pairwise (fun a b => a.string < b.string) := by
  intro l
  induction l with
  | nil =>
    intro i
    simp [possibleAux]
  | cons o rest ih =>
    intro i
    by_cases hcond : 0 ≤ pitch - o ∧ pitch - o ≤ MAX_FRET
    · rw [possibleAux_cons, if_pos hcond]
      refine ⟨?_, ?_⟩
      · intro x hx
        rcases List.mem_cons.mp hx with h3 | hx
        · rw [h3]
        · exact le_trans (Nat.le_succ i) ((ih (i + 1)).1 x hx)
      · refine List.pairwise_cons.mpr ⟨?_, (ih (i + 1)).2⟩
        intro x hx
        exact lt_of_lt_of_le (Nat.lt_succ_self i) ((ih (i + 1)).1 x hx)
    · rw [possibleAux_cons, if_neg hcond]
      exact ⟨fun x hx => le_trans (Nat.le_succ i) ((ih (i + 1)).1 x hx), (ih (i + 1)).2⟩

theorem getPossiblePositions_pairwise (pitch : Int) :
    (getPossiblePositions pitch).Pairwise (fun a b => a.string < b.string) :=
  (possibleAux_string_bound pitch TUNING 0).2

theorem foldl_closerPos_spec (c : Int) :
    ∀ (l : List Note) (acc : Note),
      ∃ pre post,
        acc :: l = pre ++ (l.foldl (closerPos c) acc) :: post ∧
        (∀ x ∈ pre, |(l.foldl (closerPos c) acc).fret - c| < |x.fret - c|) ∧
        (∀ x ∈ acc :: l, |(l.foldl (closerPos c) acc).fret - c| ≤ |x.fret - c|) := by
  intro l
  induction l with
  | nil =>
    intro acc
    exact ⟨[], [], rfl, by simp, by simp⟩
  | cons c0 l ih =>
    intro acc
    rw [List.foldl_cons]
    by_cases h : |c0.fret - c| < |acc.fret - c|
    · rw [show closerPos c acc c0 = c0 by simp [closerPos, h]]
      obtain ⟨pre, post, heq, hpre, hmin⟩ := ih c0
      have hrc0 : |(l.foldl (closerPos c) c0).fret - c| ≤ |c0.fret - c| :=
        hmin c0 (List.mem_cons_self c0 l)
      refine ⟨acc :: pre, post, ?_, ?_, ?_⟩
      · rw [List.cons_append, ← heq]
      · intro x hx
        rcases List.mem_cons.mp hx with h3 | hx
        · rw [h3]
          exact lt_of_le_of_lt hrc0 h
        · exact hpre x hx
      · intro x hx
        rcases List.mem_cons.mp hx with h3 | hx
        · rw [h3]
          exact le_of_lt (lt_of_le_of_lt hrc0 h)
        · exact hmin x hx
    · rw [show closerPos c acc c0 = acc by simp [closerPos, h]]
      obtain ⟨pre, post, heq, hpre, hmin⟩ := ih acc
      cases pre with
      | nil =>
        simp only [List.nil_append] at heq
        injection heq with h1 h2
        refine ⟨[], c0 :: l, ?_, by simp, ?_⟩
        · rw [← h1]
          simp
        · rw [← h1] at hmin ⊢
          intro x hx
          rcases List.mem_cons.mp hx with h3 | hx
          · rw [h3]
          · rcases List.mem_cons.mp hx with h3 | hx
            · rw [h3]
              exact le_of_not_lt h
            · exact hmin x (List.mem_cons_of_mem acc hx)
      | cons a pre' =>
        rw [List.cons_append] at heq
        injection heq with h1 h2
        subst h1
        have hracc : |(l.foldl (closerPos c) acc).fret - c| < |acc.fret - c| :=
          hpre acc (List.mem_cons_self acc pre')
        refine ⟨acc :: c0 :: pre', post, ?_, ?_, ?_⟩
        · rw [List.cons_append, List.cons_append, ← h2]
        · intro x hx
          rcases List.mem_cons.mp hx with h3 | hx
          · rw [h3]
            exact hracc
          · rcases List.mem_cons.mp hx with h3 | hx
            · rw [h3]
              exact lt_of_lt_of_le hracc (le_of_not_lt h)
            · exact hpre x (List.mem_cons_of_mem acc hx)
        · intro x hx
          rcases List.mem_cons.mp hx with h3 | hx
          · rw [h3]
            exact hmin acc (List.mem_cons_self acc l)
          · rcases List.mem_cons.mp hx with h3 | hx
            · rw [h3]
              exact le_of_lt (lt_of_lt_of_le hracc (le_of_not_lt h))
            · exact hmin x (List.mem_cons_of_mem acc hx)

end GuitarUtils

namespace Fretboard

theorem lookupKey_append (m1 m2 : RMap) (k : Key) :
    lookupKey (m1 ++ m2) k =
      match lookupKey m1 k with
      | some v => some v
      | none => lookupKey m2 k := by
  induction m1 with
  | nil => simp [lookupKey]
  | cons kv rest ih =>
    by_cases h : kv.1 = k
    · simp [lookupKey, h]
    · simp [lookupKey, h, ih]

theorem lookupKey_mapEntry (g : Key → RenderedNote → RenderedNote) :
    ∀ (m : RMap) (k : Key),
      lookupKey (m.map (fun kv => (kv.1, g kv.1 kv.2))) k = (lookupKey m k).map (g k) := by
  intro m
  induction m with
  | nil => intro k; simp [lookupKey]
  | cons kv rest ih =>
    intro k
    by_cases h : kv.1 = k
    · subst h
      simp [lookupKey]
    · simp [lookupKey, h, ih]

theorem lookupKey_mem : ∀ (m : RMap) (k : Key) (v : RenderedNote),
    lookupKey m k = some v → (k, v) ∈ m := by
  intro m
  induction m with
  | nil =>
    intro k v h
    simp [lookupKey] at h
  | cons kv rest ih =>
    intro k v h
    rw [lookupKey] at h
    by_cases hk : kv.1 = k
    · rw [if_pos hk] at h
      injection h with h2
      subst hk
      subst h2
      exact List.mem_cons_self _ _
    · rw [if_neg hk] at h
      exact List.mem_cons_of_mem _ (ih k v h)

theorem lookupKey_eq_none_iff : ∀ (m : RMap) (k : Key),
    lookupKey m k = none ↔ k ∉ m.map Prod.fst := by
  intro m
  induction m with
  | nil => intro k; simp [lookupKey]
  | cons kv rest ih =>
    intro k
    by_cases h : kv.1 = k
    · subst h
      simp [lookupKey]
    · rw [lookupKey, if_neg h, List.map_cons, ih]
      constructor
      · intro hk hmem
        rcases List.mem_cons.mp hmem with h1 | h1
        · exact h h1.symm
        · exact hk h1
      · intro hk h1
        exact hk (List.mem_cons_of_mem _ h1)

theorem lookupKey_filter_sat (p : Key × RenderedNote → Bool) :
    ∀ (m : RMap) (k : Key) (v : RenderedNote),
      lookupKey m k = some v → p (k, v) = true →
      lookupKey (m.filter p) k = some v := by
  intro m
  induction m with
  | nil =>
    intro k v h _
    simp [lookupKey] at h
  | cons kv rest ih =>
    intro k v h hp
    rw [lookupKey] at h
    by_cases hk : kv.1 = k
    · rw [if_pos hk] at h
      injection h with h2
      subst hk
      subst h2
      rw [List.filter_cons, if_pos hp, lookupKey, if_pos rfl]
    · rw [if_neg hk] at h
      rw [List.filter_cons]
      by_cases hpkv : p kv = true
      · rw [if_pos hpkv, lookupKey, if_neg hk]
        exact ih k v h hp
      · rw [if_neg hpkv]
        exact ih k v h hp

theorem lookupKey_none_filter (p : Key × RenderedNote → Bool) :
    ∀ (m : RMap) (k : Key),
      lookupKey m k = none → lookupKey (m.filter p) k = none := by
  intro m
  induction m with
  | nil => intro k _; rfl
  | cons kv rest ih =>
    intro k h
    rw [lookupKey] at h
    by_cases hk : kv.1 = k
    · rw [if_pos hk] at h
      exact absurd h (by simp)
    · rw [if_neg hk] at h
      rw [List.filter_cons]
      by_cases hpkv : p kv = true
      · rw [if_pos hpkv, lookupKey, if_neg hk]
        exact ih k h
      · rw [if_neg hpkv]
        exact ih k h

theorem lookupKey_filter_none_of_unsat (p : Key × RenderedNote → Bool) :
    ∀ (m : RMap) (k : Key) (v : RenderedNote),
      lookupKey m k = some v → p (k, v) = false → (m.map Prod.fst).Nodup →
      lookupKey (m.filter p) k = none := by
  intro m
  induction m with
  | nil =>
    intro k v h _ _
    simp [lookupKey] at h
  | cons kv rest ih =>
    intro k v h hp hnd
    rw [List.map_cons, List.nodup_cons] at hnd
    rw [lookupKey] at h
    by_cases hk : kv.1 = k
    · rw [if_pos hk] at h
      injection h with h2
      subst hk
      subst h2
      rw [List.filter_cons, if_neg (by rw [hp]; exact Bool.false_ne_true)]
      apply lookupKey_none_filter
      rw [lookupKey_eq_none_iff]
      exact hnd.1
    · rw [if_neg hk] at h
      rw [List.filter_cons]
      by_cases hpkv : p kv = true
      · rw [if_pos hpkv, lookupKey, if_neg hk]
        exact ih k v h hp hnd.2
      · rw [if_neg hpkv]
        exact ih k v h hp hnd.2

theorem mem_insertKey (m : RMap) (k : Key) (v : RenderedNote) (kv : Key × RenderedNote)
    (h : kv ∈ insertKey m k v) : kv ∈ m ∨ kv = (k, v) := by
  unfold insertKey at h
  by_cases hs : (lookupKey m k).isSome = true
  · rw [if_pos hs] at h
    obtain ⟨a, ha, hfa⟩ := List.mem_map.mp h
    by_cases hak : a.1 = k
    · rw [if_pos hak] at hfa
      exact Or.inr hfa.symm
    · rw [if_neg hak] at hfa
      exact Or.inl (hfa ▸ ha)
  · rw [if_neg hs] at h
    rcases List.mem_append.mp h with h | h
    · exact Or.inl h
    · exact Or.inr (List.mem_singleton.mp h)

theorem expired_false_of_le (now fs : Int) (e : RenderedNote)
    (hfs : e.fadeStartTime = some fs) (ht : now ≤ fs + 500) :
    expired now e = false := by
  simp only [expired, hfs, Bool.and_eq_false_iff]
  right
  simp only [decide_eq_false_iff_not, not_lt]
  omega

theorem expired_true_of_gt (now fs : Int) (e : RenderedNote)
    (hf : e.isFading = true) (hfs : e.fadeStartTime = some fs) (ht : fs + 500 < now) :
    expired now e = true := by
  simp only [expired, hf, hfs, Bool.true_and, decide_eq_true_eq]
  omega

theorem expired_eq_true_iff (now : Int) (e : RenderedNote) :
    expired now e = true ↔
      e.isFading = true ∧ ∃ fs, e.fadeStartTime = some fs ∧ now - fs > 500 := by
  cases hfs : e.fadeStartTime with
  | none => simp [expired, hfs]
  | some fs =>
    constructor
    · intro h
      simp only [expired, hfs, Bool.and_eq_true, decide_eq_true_eq] at h
      exact ⟨h.1, fs, rfl, h.2⟩
    · rintro ⟨hf, fs', hfs', hgt⟩
      injection hfs' with h2
      subst h2
      simp only [expired, hfs, hf, Bool.true_and, decide_eq_true_eq]
      exact hgt

end Fretboard

namespace Fretboard

theorem keys_mapEntry (g : Key → RenderedNote → RenderedNote) :
    ∀ (m : RMap),
      ((m.map (fun kv => (kv.1, g kv.1 kv.2))).map Prod.fst) = m.map Prod.fst := by
  intro m
  induction m with
  | nil => rfl
  | cons kv rest ih => simp only [List.map_cons, ih]

theorem keys_unfade :
    ∀ (l : RMap),
      ((l.map (fun kv : Key × RenderedNote => (kv.1, { kv.2 with isFading := false }))).map
        Prod.fst) = l.map Prod.fst := by
  intro l
  induction l with
  | nil => rfl
  | cons kv rest ih => simp only [List.map_cons, ih]

theorem reconcileEntry_fading (cur : RMap) (now : Int) (k : Key) (e : RenderedNote)
    (hc : lookupKey cur k = none) (hf : e.isFading = true) :
    reconcileEntry cur now k e = e := by
  simp [reconcileEntry, hc, hf]

theorem lookupKey_additions (prev : RMap) :
    ∀ (cur : RMap) (k : Key),
      (lookupKey prev k).isNone = false →
      lookupKey ((cur.filter (fun kv : Key × RenderedNote => (lookupKey prev kv.1).isNone)).map
        (fun kv : Key × RenderedNote => (kv.1, { kv.2 with isFading := false }))) k = none := by
  intro cur
  induction cur with
  | nil =>
    intro k _
    rfl
  | cons kv rest ih =>
    intro k hk
    rw [List.filter_cons]
    by_cases hq : (lookupKey prev kv.1).isNone = true
    · rw [if_pos (by simpa using hq), List.map_cons, lookupKey]
      by_cases hke : kv.1 = k
      · rw [hke] at hq
        rw [hk] at hq
        exact absurd hq (by decide)
      · rw [if_neg hke]
        exact ih k hk
    · rw [if_neg (by simpa using hq)]
      exact ih k hk

theorem lookupKey_additions_found (prev : RMap) :
    ∀ (cur : RMap) (k : Key) (ce : RenderedNote),
      lookupKey cur k = some ce → (lookupKey prev k).isNone = true →
      lookupKey ((cur.filter (fun kv : Key × RenderedNote => (lookupKey prev kv.1).isNone)).map
        (fun kv : Key × RenderedNote => (kv.1, { kv.2 with isFading := false }))) k =
        some { ce with isFading := false } := by
  intro cur
  induction cur with
  | nil =>
    intro k ce h _
    simp [lookupKey] at h
  | cons kv rest ih =>
    intro k ce h hk
    rw [lookupKey] at h
    rw [List.filter_cons]
    by_cases hke : kv.1 = k
    · rw [if_pos hke] at h
      injection h with h2
      subst hke
      subst h2
      rw [if_pos (by simpa using hk), List.map_cons, lookupKey, if_pos rfl]
    · rw [if_neg hke] at h
      by_cases hq : (lookupKey prev kv.1).isNone = true
      · rw [if_pos (by simpa using hq), List.map_cons, lookupKey, if_neg hke]
        exact ih k ce h hk
      · rw [if_neg (by simpa using hq)]
        exact ih k ce h hk

theorem reconcile_lookup_cur (prev cur : RMap) (now : Int) (k : Key) (ce : RenderedNote)
    (hc : lookupKey cur k = some ce) :
    lookupKey (reconcile prev cur now) k = some { ce with isFading := false } := by
  unfold reconcile
  refine lookupKey_filter_sat _ _ _ _ ?_ (by simp [expired])
  rw [lookupKey_append, lookupKey_mapEntry (reconcileEntry cur now) prev k]
  cases hp : lookupKey prev k with
  | some e =>
    have hval : reconcileEntry cur now k e = { ce with isFading := false } := by
      simp [reconcileEntry, hc]
    simp [hval]
  | none =>
    simp only [Option.map_none']
    exact lookupKey_additions_found prev cur k ce hc (by rw [hp]; rfl)

theorem reconcile_keep (prev cur : RMap) (now : Int) (k : Key) (e : RenderedNote)
    (hp : lookupKey prev k = some e) (hc : lookupKey cur k = none)
    (hexp : expired now (reconcileEntry cur now k e) = false) :
    lookupKey (reconcile prev cur now) k = some (reconcileEntry cur now k e) := by
  unfold reconcile
  refine lookupKey_filter_sat _ _ _ _ ?_ (by simp [hexp])
  rw [lookupKey_append, lookupKey_mapEntry (reconcileEntry cur now) prev k, hp]
  simp

theorem reconcile_drop (prev cur : RMap) (now : Int) (k : Key) (e : RenderedNote)
    (hp : lookupKey prev k = some e) (hc : lookupKey cur k = none)
    (hexp : expired now (reconcileEntry cur now k e) = true)
    (hnd : (prev.map Prod.fst).Nodup) :
    lookupKey (reconcile prev cur now) k = none := by
  unfold reconcile
  rw [List.filter_append, lookupKey_append]
  have hA : lookupKey
      ((prev.map (fun kv : Key × RenderedNote => (kv.1, reconcileEntry cur now kv.1 kv.2))).filter
        (fun kv : Key × RenderedNote => !expired now kv.2)) k = none := by
    apply lookupKey_filter_none_of_unsat _ _ _ (reconcileEntry cur now k e)
    · rw [lookupKey_mapEntry (reconcileEntry cur now) prev k, hp]
      rfl
    · simp [hexp]
    · rw [keys_mapEntry]
      exact hnd
  have hB : lookupKey
      ((cur.filter (fun kv : Key × RenderedNote => (lookupKey prev kv.1).isNone)).map
        (fun kv : Key × RenderedNote => (kv.1, { kv.2 with isFading := false }))) k = none := by
    apply lookupKey_additions
    rw [hp]
    rfl
  rw [hA]
  exact lookupKey_none_filter _ _ _ hB

theorem sweep_keep (m : RMap) (now : Int) (k : Key) (e : RenderedNote)
    (hl : lookupKey m k = some e) (hexp : expired now e = false) :
    lookupKey (sweep m now) k = some e :=
  lookupKey_filter_sat _ m k e hl (by simp [hexp])

theorem sweep_drop (m : RMap) (now : Int) (k : Key) (e : RenderedNote)
    (hl : lookupKey m k = some e) (hexp : expired now e = true)
    (hnd : (m.map Prod.fst).Nodup) :
    lookupKey (sweep m now) k = none :=
  lookupKey_filter_none_of_unsat _ m k e hl (by simp [hexp]) hnd

theorem sweep_nodup (m : RMap) (now : Int) (h : (m.map Prod.fst).Nodup) :
    ((sweep m now).map Prod.fst).Nodup :=
  List.Nodup.sublist (List.Sublist.map Prod.fst (List.filter_sublist m)) h

theorem reconcile_nodup (prev cur : RMap) (now : Int)
    (h1 : (prev.map Prod.fst).Nodup) (h2 : (cur.map Prod.fst).Nodup) :
    ((reconcile prev cur now).map Prod.fst).Nodup := by
  unfold reconcile
  apply List.Nodup.sublist (List.Sublist.map Prod.fst (List.filter_sublist _))
  rw [List.map_append, keys_mapEntry, keys_unfade, List.nodup_append]
  refine ⟨h1, List.Nodup.sublist (List.Sublist.map Prod.fst (List.filter_sublist cur)) h2, ?_⟩
  intro a ha hb
  obtain ⟨kv, hkv, hkva⟩ := List.mem_map.mp hb
  have hq : (lookupKey prev kv.1).isNone = true := by
    simpa using (List.mem_filter.mp hkv).2
  have hnone : lookupKey prev kv.1 = none := Option.isNone_iff_eq_none.mp hq
  rw [← hkva] at ha
  exact (lookupKey_eq_none_iff prev kv.1).mp hnone ha

end Fretboard

namespace Fretboard

theorem capStep_mem (c : Int) (fo : Bool) (m : RMap) (n : App.Note)
    (kv : Key × RenderedNote) (h : kv ∈ capStep c fo m n) :
    kv ∈ m ∨ kv.2 = mkRendered n := by
  simp only [capStep] at h
  split at h
  · exact Or.inl h
  · split at h
    · rcases mem_insertKey _ _ _ _ h with h | h
      · exact Or.inl h
      · exact Or.inr (by rw [h])
    · split at h
      · rcases mem_insertKey _ _ _ _ h with h | h
        · exact Or.inl h
        · exact Or.inr (by rw [h])
      · exact Or.inl h

theorem foldl_capStep_inv (c : Int) (fo : Bool) :
    ∀ (notesL : List App.Note) (m : RMap),
      (∀ kv ∈ m, kv.2.isFading = false ∧ kv.2.fadeStartTime = none) →
      ∀ kv ∈ notesL.foldl (capStep c fo) m,
        kv.2.isFading = false ∧ kv.2.fadeStartTime = none := by
  intro notesL
  induction notesL with
  | nil =>
    intro m hm
    simpa using hm
  | cons n rest ih =>
    intro m hm
    rw [List.foldl_cons]
    apply ih
    intro kv hkv
    rcases capStep_mem c fo m n kv hkv with h | h
    · exact hm kv h
    · rw [h]
      exact ⟨rfl, rfl⟩

theorem currentActivePositions_entry_fresh (notesL : List App.Note) (c : Int) (fo : Bool)
    (k : Key) (ce : RenderedNote)
    (h : lookupKey (currentActivePositions notesL c fo) k = some ce) :
    ce.isFading = false ∧ ce.fadeStartTime = none := by
  have hmem := lookupKey_mem _ _ _ h
  exact foldl_capStep_inv c fo notesL [] (by simp) (k, ce) hmem

theorem applyEvent_keeps (m : RMap) (ev : FEvent) (k : Key) (e : RenderedNote) (fs : Int)
    (hl : lookupKey m k = some e) (hf : e.isFading = true)
    (hfs : e.fadeStartTime = some fs) (hnd : (m.map Prod.fst).Nodup)
    (ht : ev.time ≤ fs + 500) (hav : evAvoids k ev) :
    lookupKey (applyEvent m ev) k = some e ∧ ((applyEvent m ev).map Prod.fst).Nodup := by
  cases ev with
  | tick cur now =>
    obtain ⟨hc, hcnd⟩ := hav
    have hent : reconcileEntry cur now k e = e := reconcileEntry_fading cur now k e hc hf
    have hexp : expired now e = false := expired_false_of_le now fs e hfs ht
    constructor
    · have hr := reconcile_keep m cur now k e hl hc (by rw [hent]; exact hexp)
      rw [hent] at hr
      exact hr
    · exact reconcile_nodup m cur now hnd hcnd
  | sweepTick now =>
    have hexp : expired now e = false := expired_false_of_le now fs e hfs ht
    exact ⟨sweep_keep m now k e hl hexp, sweep_nodup m now hnd⟩

theorem applyEvent_removes (m : RMap) (ev : FEvent) (k : Key) (e : RenderedNote) (fs : Int)
    (hl : lookupKey m k = some e) (hf : e.isFading = true)
    (hfs : e.fadeStartTime = some fs) (hnd : (m.map Prod.fst).Nodup)
    (ht : fs + 500 < ev.time) (hav : evAvoids k ev) :
    lookupKey (applyEvent m ev) k = none := by
  cases ev with
  | tick cur now =>
    obtain ⟨hc, _⟩ := hav
    have hent : reconcileEntry cur now k e = e := reconcileEntry_fading cur now k e hc hf
    have hexp : expired now e = true := expired_true_of_gt now fs e hf hfs ht
    exact reconcile_drop m cur now k e hl hc (by rw [hent]; exact hexp) hnd
  | sweepTick now =>
    exact sweep_drop m now k e hl (expired_true_of_gt now fs e hf hfs ht) hnd

theorem runEvents_removes (k : Key) (e : RenderedNote) (fs : Int) :
    ∀ (evs : List FEvent) (m : RMap) (ev : FEvent),
      lookupKey m k = some e → e.isFading = true → e.fadeStartTime = some fs →
      (m.map Prod.fst).Nodup →
      (∀ ε ∈ evs, ε.time ≤ fs + 500 ∧ evAvoids k ε) →
      fs + 500 < ev.time → evAvoids k ev →
      lookupKey (runEvents m (evs ++ [ev])) k = none := by
  intro evs
  induction evs with
  | nil =>
    intro m ev hl hf hfs hnd _ ht hav
    rw [List.nil_append]
    show lookupKey (applyEvent m ev) k = none
    exact applyEvent_removes m ev k e fs hl hf hfs hnd ht hav
  | cons ε rest ih =>
    intro m ev hl hf hfs hnd hpre ht hav
    rw [List.cons_append]
    show lookupKey (runEvents (applyEvent m ε) (rest ++ [ev])) k = none
    obtain ⟨hl', hnd'⟩ := applyEvent_keeps m ε k e fs hl hf hfs hnd
      (hpre ε (List.mem_cons_self ε rest)).1 (hpre ε (List.mem_cons_self ε rest)).2
    exact ih (applyEvent m ε) ev hl' hf hfs hnd'
      (fun x hx => hpre x (List.mem_cons_of_mem ε hx)) ht hav

theorem reconcile_remove_implies (prev cur : RMap) (now : Int) (k : Key) (e : RenderedNote)
    (hp : lookupKey prev k = some e)
    (hnone : lookupKey (reconcile prev cur now) k = none) :
    lookupKey cur k = none ∧ e.isFading = true ∧
      ∃ fs, e.fadeStartTime = some fs ∧ now - fs > 500 := by
  cases hc : lookupKey cur k with
  | some ce =>
    rw [reconcile_lookup_cur prev cur now k ce hc] at hnone
    exact absurd hnone (by simp)
  | none =>
    refine ⟨rfl, ?_⟩
    by_cases hf : e.isFading = true
    · refine ⟨hf, ?_⟩
      by_cases hex : expired now e = true
      · exact ((expired_eq_true_iff now e).mp hex).2
      · exfalso
        have hent : reconcileEntry cur now k e = e := reconcileEntry_fading cur now k e hc hf
        have hkeep := reconcile_keep prev cur now k e hp hc
          (by rw [hent]; exact Bool.not_eq_true _ ▸ (eq_false_of_ne_true hex))
        rw [hkeep] at hnone
        exact absurd hnone (by simp)
    · exfalso
      have hent : reconcileEntry cur now k e =
          { e with isFading := true, fadeStartTime := some now } := by
        simp [reconcileEntry, hc, hf]
      have hexp : expired now (reconcileEntry cur now k e) = false := by
        rw [hent]
        simp [expired]
      have hkeep := reconcile_keep prev cur now k e hp hc hexp
      rw [hkeep] at hnone
      exact absurd hnone (by simp)

theorem sweep_remove_implies (m : RMap) (now : Int) (k : Key) (e : RenderedNote)
    (hp : lookupKey m k = some e)
    (hnone : lookupKey (sweep m now) k = none) :
    e.isFading = true ∧ ∃ fs, e.fadeStartTime = some fs ∧ now - fs > 500 := by
  by_cases hex : expired now e = true
  · exact (expired_eq_true_iff now e).mp hex
  · exfalso
    have hkeep := sweep_keep m now k e hp (eq_false_of_ne_true hex)
    rw [hkeep] at hnone
    exact absurd hnone (by simp)

end Fretboard

/-- Claim C1: for every pitch reachable on at least one string and every
centerFret, `getBestPosition` returns an element of `getPossiblePositions`
whose fret minimizes the distance to the center, and on equal distance the
candidate with the lower string index (earlier in tuning order) wins; in
particular, with tuning [40,45,50,55,59,64], getBestPosition 57 3 is
string 3, fret 2. -/
theorem claim_C1 :
    (∀ (pitch centerFret : Int) (r : GuitarUtils.Note),
      GuitarUtils.getBestPosition pitch centerFret = some r →
      r ∈ GuitarUtils.getPossiblePositions pitch ∧
      ∀ q ∈ GuitarUtils.getPossiblePositions pitch,
        |r.fret - centerFret| ≤ |q.fret - centerFret| ∧
        (|q.fret - centerFret| = |r.fret - centerFret| → r.string ≤ q.string)) ∧
    GuitarUtils.getBestPosition 57 3 = some ⟨3, 2, 57⟩ := by
  constructor
  · intro pitch c r hr
    cases hps : GuitarUtils.getPossiblePositions pitch with
    | nil =>
      have : GuitarUtils.getBestPosition pitch c = none := by
        unfold GuitarUtils.getBestPosition
        rw [hps]
      rw [this] at hr
      exact absurd hr (by simp)
    | cons p rest =>
      have hfold : GuitarUtils.getBestPosition pitch c
          = some (rest.foldl (GuitarUtils.closerPos c) p) := by
        unfold GuitarUtils.getBestPosition
        rw [hps]
      rw [hfold] at hr
      injection hr with hreq
      obtain ⟨pre, post, heq, hpre, hmin⟩ := GuitarUtils.foldl_closerPos_spec c rest p
      rw [hreq] at heq hpre hmin
      refine ⟨?_, ?_⟩
      · rw [heq]
        exact List.mem_append.mpr (Or.inr (List.mem_cons_self r post))
      · intro q hq
        refine ⟨hmin q hq, ?_⟩
        intro htie
        have hq' : q ∈ pre ++ r :: post := heq ▸ hq
        rcases List.mem_append.mp hq' with hqp | hqt
        · exact absurd (htie ▸ hpre q hqp) (lt_irrefl _)
        · rcases List.mem_cons.mp hqt with h3 | hqpost
          · subst h3
            exact le_refl _
          · have hpair := GuitarUtils.getPossiblePositions_pairwise pitch
            rw [hps, heq] at hpair
            have hsub : (r :: post).Sublist (pre ++ r :: post) :=
              List.sublist_append_right pre (r :: post)
            have hcons := List.pairwise_cons.mp (hpair.sublist hsub)
            exact le_of_lt (hcons.1 q hqpost)
  · decide

/-- Witness for C1: the scenario pitch 57, centerFret 3 — string 3, fret 2
is a possible position and minimizes the distance with the tie rule. -/
theorem claim_C1_witness :
    (⟨3, 2, 57⟩ : GuitarUtils.Note) ∈ GuitarUtils.getPossiblePositions 57 ∧
    ∀ q ∈ GuitarUtils.getPossiblePositions 57,
      |(⟨3, 2, 57⟩ : GuitarUtils.Note).fret - 3| ≤ |q.fret - 3| ∧
      (|q.fret - 3| = |(⟨3, 2, 57⟩ : GuitarUtils.Note).fret - 3| →
        (⟨3, 2, 57⟩ : GuitarUtils.Note).string ≤ q.string) :=
  claim_C1.1 57 3 ⟨3, 2, 57⟩ (by decide)

/-- Claim C7: a note is classified as currently sounding at time t exactly
when start ≤ t < end: a note starting exactly at t is sounding and a note
ending exactly at t is not (checked on the spec scenario start=1, end=2 at
t = 0.99, 1, 2). -/
theorem claim_C7 :
    (∀ (notes : List App.Note) (t : Rat) (n : App.Note),
      n ∈ App.notesInTime notes t ↔ n ∈ notes ∧ n.start ≤ t ∧ t < n.end_) ∧
    (App.notesInTime [⟨1, 2, 50, 1, none, none, none, none, none⟩] (mkRat 99 100) = [] ∧
     App.notesInTime [⟨1, 2, 50, 1, none, none, none, none, none⟩] 1 =
       [⟨1, 2, 50, 1, none, none, none, none, none⟩] ∧
     App.notesInTime [⟨1, 2, 50, 1, none, none, none, none, none⟩] 2 = []) := by
  constructor
  · intro notes t n
    simp [App.notesInTime, List.mem_filter, and_assoc]
  · exact ⟨by decide, by decide, by decide⟩

/-- Claim C9: the live bend overlay is applied only to non-fading markers;
a fading marker's displayed bend is frozen at its own record's bend_value,
and at 0 when the record carries none. -/
theorem claim_C9 (note : Fretboard.RenderedNote) (b : Rat) :
    (note.isFading = false → Fretboard.dynamicBend note b = b) ∧
    (note.isFading = true →
      Fretboard.dynamicBend note b = note.bend_value.getD 0) ∧
    (note.isFading = true → note.bend_value = none →
      Fretboard.dynamicBend note b = 0) := by
  refine ⟨?_, ?_, ?_⟩
  · intro h
    simp [Fretboard.dynamicBend, h]
  · intro h
    simp [Fretboard.dynamicBend, h]
  · intro h h2
    simp [Fretboard.dynamicBend, h, h2]

/-- Witness for C9 at concrete markers: an active marker tracks the live
overlay, a fading one shows its stored bend value, and 0 without one. -/
theorem claim_C9_witness :
    Fretboard.dynamicBend activeMarker (mkRat 3 10) = mkRat 3 10 ∧
    Fretboard.dynamicBend fadingMarker (mkRat 3 10) = fadingMarker.bend_value.getD 0 ∧
    Fretboard.dynamicBend fadingBareMarker (mkRat 3 10) = 0 :=
  ⟨(claim_C9 activeMarker (mkRat 3 10)).1 rfl,
   (claim_C9 fadingMarker (mkRat 3 10)).2.1 rfl,
   (claim_C9 fadingBareMarker (mkRat 3 10)).2.2 rfl rfl⟩

/-- Claim C10: before any payload is loaded the derived center fret is 2 in
both modes (whatever the manual value), while a loaded payload with an empty
hand_positions list yields 0 in automatic mode. -/
theorem claim_C10 (auto : Bool) (mc : Int) (t : Rat) :
    App.currentCenterFret none auto mc t = 2 ∧
    App.currentCenterFret
      (some ⟨0, [], [], none⟩) true mc t = 0 :=
  ⟨rfl, rfl⟩

/-- Claim C8: `getPossiblePositions pitch` contains (string i, fret
pitch - tuning[i]) exactly for the strings whose fret lands in [0,22],
every element has that shape (so no fret outside [0,22] is returned), and
the result is empty iff the pitch is unreachable on every string. -/
theorem claim_C8 (pitch : Int) :
    (∀ pos ∈ GuitarUtils.getPossiblePositions pitch, 0 ≤ pos.fret ∧ pos.fret ≤ 22) ∧
    (∀ j, ∀ hj : j < GuitarUtils.TUNING.length,
      ((⟨j, pitch - GuitarUtils.TUNING.get ⟨j, hj⟩, pitch⟩ : GuitarUtils.Note) ∈
          GuitarUtils.getPossiblePositions pitch ↔
        (0 ≤ pitch - GuitarUtils.TUNING.get ⟨j, hj⟩ ∧
         pitch - GuitarUtils.TUNING.get ⟨j, hj⟩ ≤ 22))) ∧
    (∀ pos ∈ GuitarUtils.getPossiblePositions pitch,
      ∃ hj : pos.string < GuitarUtils.TUNING.length,
        pos.fret = pitch - GuitarUtils.TUNING.get ⟨pos.string, hj⟩ ∧ pos.pitch = pitch) ∧
    (GuitarUtils.getPossiblePositions pitch = [] ↔
      ∀ j, ∀ hj : j < GuitarUtils.TUNING.length,
        ¬(0 ≤ pitch - GuitarUtils.TUNING.get ⟨j, hj⟩ ∧
          pitch - GuitarUtils.TUNING.get ⟨j, hj⟩ ≤ 22)) := by
  have hmem := GuitarUtils.mem_possibleAux pitch GuitarUtils.TUNING 0
  refine ⟨?_, ?_, ?_, ?_⟩
  · intro pos hpos
    obtain ⟨j, hj, hx, h0, h1⟩ := (hmem pos).mp hpos
    rw [hx]
    exact ⟨h0, h1⟩
  · intro j hj
    constructor
    · intro hmem2
      obtain ⟨j', hj', hx, h0, h1⟩ := (hmem _).mp hmem2
      have hstr : j = 0 + j' := congrArg GuitarUtils.Note.string hx
      rw [Nat.zero_add] at hstr
      subst hstr
      exact ⟨h0, h1⟩
    · intro hcond
      exact (hmem _).mpr ⟨j, hj, by simp, hcond.1, hcond.2⟩
  · intro pos hpos
    obtain ⟨j, hj, hx, h0, h1⟩ := (hmem pos).mp hpos
    rw [Nat.zero_add] at hx
    subst hx
    exact ⟨hj, rfl, rfl⟩
  · constructor
    · intro hnil j hj hcond
      have hin : (⟨j, pitch - GuitarUtils.TUNING.get ⟨j, hj⟩, pitch⟩ : GuitarUtils.Note) ∈
          GuitarUtils.getPossiblePositions pitch :=
        (hmem _).mpr ⟨j, hj, by simp, hcond.1, hcond.2⟩
      rw [hnil] at hin
      exact absurd hin (by simp)
    · intro hall
      cases hlist : GuitarUtils.getPossiblePositions pitch with
      | nil => rfl
      | cons p rest =>
        have hp : p ∈ GuitarUtils.getPossiblePositions pitch := by
          rw [hlist]
          exact List.mem_cons_self p rest
        obtain ⟨j, hj, hx, h0, h1⟩ := (hmem p).mp hp
        exact absurd ⟨h0, h1⟩ (hall j hj)

/-- Witness for C8 at pitch 57 (string 3 holds it at fret 2) and at the
unreachable pitch 30 (below every open string). -/
theorem claim_C8_witness :
    (0 ≤ (⟨3, 2, 57⟩ : GuitarUtils.Note).fret ∧ (⟨3, 2, 57⟩ : GuitarUtils.Note).fret ≤ 22) ∧
    ((⟨3, 2, 57⟩ : GuitarUtils.Note) ∈ GuitarUtils.getPossiblePositions 57) ∧
    GuitarUtils.getPossiblePositions 30 = [] := by
  refine ⟨(claim_C8 57).1 ⟨3, 2, 57⟩ (by decide), ?_, ?_⟩
  · exact ((claim_C8 57).2.1 3 (by decide)).mpr (by decide)
  · exact (claim_C8 30).2.2.2.mpr (by decide)

/-- Claim C2: for a note sounding at time t, an explicit (string, fret)
pair is kept unchanged exactly in automatic hand-tracking mode; otherwise
(manual mode, or incomplete fingering) the resolver assigns the result of
getBestPosition at the target center — the automatic centerFret(t) in
automatic mode, the operator value in manual mode. The resolved note is
what activeNotes carries. -/
theorem claim_C2 (r : App.AnalysisResult) (t : Rat) (auto : Bool) (mc : Int)
    (n : App.Note) (hsound : n ∈ App.notesInTime r.notes t) :
    App.resolveNote auto (App.currentCenterFret (some r) auto mc t) mc n ∈
      App.activeNotes (some r) t auto mc ∧
    (auto = true → ∀ s f, n.string = some s → n.fret = some f →
      App.resolveNote auto (App.currentCenterFret (some r) auto mc t) mc n = n) ∧
    ((auto = false ∨ n.string = none ∨ n.fret = none) →
      ∀ bp, GuitarUtils.getBestPosition n.pitch
          (if auto then App.currentCenterFret (some r) auto mc t else mc) = some bp →
        (App.resolveNote auto (App.currentCenterFret (some r) auto mc t) mc n).string
            = some bp.string ∧
        (App.resolveNote auto (App.currentCenterFret (some r) auto mc t) mc n).fret
            = some bp.fret) := by
  refine ⟨?_, ?_, ?_⟩
  · unfold App.activeNotes
    exact List.mem_map_of_mem _ hsound
  · intro hauto s f hs hf
    subst hauto
    simp [App.resolveNote, hs, hf]
  · intro hrec bp hbp
    have hcond : (!auto || n.string.isNone || n.fret.isNone) = true := by
      rcases hrec with h | h | h
      · subst h
        rfl
      · simp [h]
      · simp [h]
    simp [App.resolveNote, hcond, hbp]

/-- Witness for C2: in manual mode the unfingered note (pitch 45) resolves
to string 1, fret 0 and lands in activeNotes; in automatic mode the
explicitly fingered note is kept unchanged. -/
theorem claim_C2_witness :
    App.resolveNote false (App.currentCenterFret (some twoNoteResult) false 2 1) 2 plainNote ∈
      App.activeNotes (some twoNoteResult) 1 false 2 ∧
    (App.resolveNote false (App.currentCenterFret (some twoNoteResult) false 2 1) 2
        plainNote).string = some 1 ∧
    (App.resolveNote false (App.currentCenterFret (some twoNoteResult) false 2 1) 2
        plainNote).fret = some 0 ∧
    App.resolveNote true (App.currentCenterFret (some twoNoteResult) true 2 1) 2 backedNote
      = backedNote := by
  have h1 := claim_C2 twoNoteResult 1 false 2 plainNote (by decide)
  have h2 := claim_C2 twoNoteResult 1 true 2 backedNote (by decide)
  have h3 := h1.2.2 (Or.inl rfl) ⟨1, 0, 45⟩ (by decide)
  exact ⟨h1.1, h3.1, h3.2, h2.2.1 rfl 5 7 rfl rfl⟩

/-- Counterexample to C5: a sounding note whose pitch (100) yields no
possible position but which carries an explicit (string 0, fret 5)
fingering is NOT dropped — it still produces an entry in the renderable
set (manual mode shown). -/
theorem claim_C5_counterexample :
    GuitarUtils.getPossiblePositions 100 = [] ∧
    App.notesInTime [⟨0, 10, 100, 1, none, some 0, some 5, none, none⟩] 1 =
      [⟨0, 10, 100, 1, none, some 0, some 5, none, none⟩] ∧
    (Fretboard.lookupKey
      (Fretboard.currentActivePositions
        (App.activeNotes
          (some ⟨10, [⟨0, 10, 100, 1, none, some 0, some 5, none, none⟩], [], none⟩)
          1 false 2)
        2 false)
      (0, 5)).isSome = true :=
  ⟨by decide, by decide, by decide⟩

/-- Claim C5 (amended): a sounding note whose pitch has no possible
position and which lacks a complete explicit fingering contributes no
entry to the renderable set — in both modes, with no error
(getBestPosition merely returns none). -/
theorem claim_C5_amended (c : Int) (fo auto : Bool) (cc mc : Int) (n : App.Note)
    (m : Fretboard.RMap)
    (hempty : GuitarUtils.getPossiblePositions n.pitch = [])
    (hno : n.string = none ∨ n.fret = none) :
    Fretboard.capStep c fo m (App.resolveNote auto cc mc n) = m ∧
    GuitarUtils.getBestPosition n.pitch c = none := by
  have hbest : ∀ x : Int, GuitarUtils.getBestPosition n.pitch x = none := by
    intro x
    unfold GuitarUtils.getBestPosition
    rw [hempty]
  have hres : App.resolveNote auto cc mc n = n := by
    unfold App.resolveNote
    by_cases hcond : (!auto || n.string.isNone || n.fret.isNone) = true
    · rw [if_pos hcond]
      simp [hbest]
    · rw [if_neg hcond]
  refine ⟨?_, hbest c⟩
  rw [hres]
  rcases hno with h | h
  · simp [Fretboard.capStep, h, hbest]
  · cases hs : n.string with
    | none => simp [Fretboard.capStep, hs, hbest]
    | some s => simp [Fretboard.capStep, h, hs, hbest]

/-- Witness for C5 (amended): the unreachable, unfingered note produces no
renderable entry in manual mode. -/
theorem claim_C5_amended_witness :
    Fretboard.capStep 2 false [] (App.resolveNote false 2 2 unreachableNote) = [] ∧
    GuitarUtils.getBestPosition unreachableNote.pitch 2 = none :=
  claim_C5_amended 2 false false 2 2 unreachableNote [] (by decide) (Or.inl rfl)

theorem filter_getLast_none {α : Type} (p : α → Bool) (l : List α)
    (hl : ∀ y ∈ l, p y = false) :
    (l.filter p).getLast? = none := by
  rw [List.filter_eq_nil_iff.mpr (fun a ha => by simp [hl a ha])]
  rfl

theorem filter_getLast_concat {α : Type} (p : α → Bool) (l1 l2 : List α) (x : α)
    (hx : p x = true) (hl2 : ∀ y ∈ l2, p y = false) :
    ((l1 ++ x :: l2).filter p).getLast? = some x := by
  have h2 : l2.filter p = [] :=
    List.filter_eq_nil_iff.mpr (fun a ha => by simp [hl2 a ha])
  rw [List.filter_append, List.filter_cons, if_pos hx, h2]
  exact List.getLast?_concat _

/-- Claim C6: over a loaded payload, the automatic centerFret(t) is the
center_fret of the last hand position with time ≤ t and 0 when none
qualifies; the bend lookup is the pitch of the last bend sample with time
≤ t, and 0 when none qualifies or the pitch_bends list is absent. Both
lookups are total functions (they never throw). -/
theorem claim_C6 (r : App.AnalysisResult) (mc : Int) (t : Rat) :
    ((∀ p ∈ r.hand_positions, ¬(p.time ≤ t)) →
      App.currentCenterFret (some r) true mc t = 0) ∧
    (∀ l1 hp l2, r.hand_positions = l1 ++ hp :: l2 → hp.time ≤ t →
      (∀ q ∈ l2, ¬(q.time ≤ t)) →
      App.currentCenterFret (some r) true mc t = hp.center_fret) ∧
    (r.pitch_bends = none → App.currentBend (some r) t = 0) ∧
    (∀ bl, r.pitch_bends = some bl → (∀ b ∈ bl, ¬(b.time ≤ t)) →
      App.currentBend (some r) t = 0) ∧
    (∀ bl l1 b l2, r.pitch_bends = some bl → bl = l1 ++ b :: l2 → b.time ≤ t →
      (∀ q ∈ l2, ¬(q.time ≤ t)) → App.currentBend (some r) t = b.pitch) := by
  refine ⟨?_, ?_, ?_, ?_, ?_⟩
  · intro hnone
    have hlast : (r.hand_positions.filter
        (fun p => decide (p.time ≤ t))).getLast? = none :=
      filter_getLast_none _ _ (fun y hy => by simp [hnone y hy])
    simp [App.currentCenterFret, hlast]
  · intro l1 hp l2 hsplit hle hafter
    have hlast : (r.hand_positions.filter
        (fun p => decide (p.time ≤ t))).getLast? = some hp := by
      rw [hsplit]
      exact filter_getLast_concat _ _ _ _ (by simp [hle])
        (fun y hy => by simp [hafter y hy])
    simp [App.currentCenterFret, hlast]
  · intro hnone
    simp [App.currentBend, hnone]
  · intro bl hsome hnone
    have hlast : (bl.filter (fun b => decide (b.time ≤ t))).getLast? = none :=
      filter_getLast_none _ _ (fun y hy => by simp [hnone y hy])
    simp [App.currentBend, hsome, hlast]
  · intro bl l1 b l2 hsome hsplit hle hafter
    have hlast : (bl.filter (fun b => decide (b.time ≤ t))).getLast? = some b := by
      rw [hsplit]
      exact filter_getLast_concat _ _ _ _ (by simp [hle])
        (fun y hy => by simp [hafter y hy])
    simp [App.currentBend, hsome, hlast]

/-- Witness for C6 on a payload with one hand position (time 1, fret 5) and
one bend sample (time 1, pitch 1/2): queries before and after the samples,
and on a payload with no pitch_bends list. -/
theorem claim_C6_witness :
    App.currentCenterFret (some sampleResult) true 0 0 = 0 ∧
    App.currentCenterFret (some sampleResult) true 0 2 = 5 ∧
    App.currentBend (some bendlessResult) 2 = 0 ∧
    App.currentBend (some sampleResult) 0 = 0 ∧
    App.currentBend (some sampleResult) 2 = mkRat 1 2 := by
  have h0 := claim_C6 sampleResult 0 0
  have h2 := claim_C6 sampleResult 0 2
  have hb := claim_C6 bendlessResult 0 2
  refine ⟨?_, ?_, ?_, ?_, ?_⟩
  · exact h0.1 (by decide)
  · exact h2.2.1 [] ⟨1, 5⟩ [] rfl (by decide) (by simp)
  · exact hb.2.2.1 rfl
  · exact h0.2.2.2.1 [⟨1, mkRat 1 2⟩] rfl (by decide)
  · exact h2.2.2.2.2 [⟨1, mkRat 1 2⟩] [] ⟨1, mkRat 1 2⟩ [] rfl rfl (by decide) (by simp)

/-- Claim C3: a fading entry is removed by a reconciliation tick or by the
sweep exactly when now − fadeStartTime > 500 ms (so never earlier than the
fade duration); removal of every expired entry happens on every
reconciliation tick and on every sweep firing; the sweep interval is
installed iff some entry is fading; and along any run of events in which
the key does not reappear, an event in the window
(fadeStart + 500, fadeStart + 600] removes the key — no later than
fadeDuration + sweepInterval after the fade began — while events up to
fadeStart + 500 keep it. -/
theorem claim_C3 (prev cur : Fretboard.RMap) (now : Int) (k : Fretboard.Key)
    (e : Fretboard.RenderedNote) :
    (Fretboard.lookupKey prev k = some e →
      Fretboard.lookupKey (Fretboard.reconcile prev cur now) k = none →
      Fretboard.lookupKey cur k = none ∧ e.isFading = true ∧
        ∃ fs, e.fadeStartTime = some fs ∧ now - fs > 500) ∧
    (Fretboard.lookupKey prev k = some e →
      Fretboard.lookupKey (Fretboard.sweep prev now) k = none →
      e.isFading = true ∧ ∃ fs, e.fadeStartTime = some fs ∧ now - fs > 500) ∧
    (∀ fs, Fretboard.lookupKey prev k = some e → e.isFading = true →
      e.fadeStartTime = some fs → now - fs > 500 → Fretboard.lookupKey cur k = none →
      (prev.map Prod.fst).Nodup →
      Fretboard.lookupKey (Fretboard.reconcile prev cur now) k = none) ∧
    (∀ fs, Fretboard.lookupKey prev k = some e → e.isFading = true →
      e.fadeStartTime = some fs → now - fs > 500 → (prev.map Prod.fst).Nodup →
      Fretboard.lookupKey (Fretboard.sweep prev now) k = none) ∧
    (Fretboard.hasFading prev = true ↔ ∃ kv ∈ prev, kv.2.isFading = true) ∧
    (∀ (ev : Fretboard.FEvent) (fs : Int), Fretboard.lookupKey prev k = some e →
      e.isFading = true → e.fadeStartTime = some fs → (prev.map Prod.fst).Nodup →
      ev.time ≤ fs + 500 → Fretboard.evAvoids k ev →
      Fretboard.lookupKey (Fretboard.applyEvent prev ev) k = some e) ∧
    (∀ (evs : List Fretboard.FEvent) (ev : Fretboard.FEvent) (fs : Int),
      Fretboard.lookupKey prev k = some e → e.isFading = true →
      e.fadeStartTime = some fs → (prev.map Prod.fst).Nodup →
      (∀ ε ∈ evs, ε.time ≤ fs + 500 ∧ Fretboard.evAvoids k ε) →
      fs + 500 < ev.time → ev.time ≤ fs + 600 → Fretboard.evAvoids k ev →
      Fretboard.lookupKey (Fretboard.runEvents prev (evs ++ [ev])) k = none) := by
  refine ⟨?_, ?_, ?_, ?_, ?_, ?_, ?_⟩
  · exact fun hp hnone => Fretboard.reconcile_remove_implies prev cur now k e hp hnone
  · exact fun hp hnone => Fretboard.sweep_remove_implies prev now k e hp hnone
  · intro fs hp hf hfs hgt hc hnd
    have hent := Fretboard.reconcileEntry_fading cur now k e hc hf
    exact Fretboard.reconcile_drop prev cur now k e hp hc
      (by rw [hent]; exact Fretboard.expired_true_of_gt now fs e hf hfs (by omega)) hnd
  · intro fs hp hf hfs hgt hnd
    exact Fretboard.sweep_drop prev now k e hp
      (Fretboard.expired_true_of_gt now fs e hf hfs (by omega)) hnd
  · simp [Fretboard.hasFading, List.any_eq_true]
  · intro ev fs hp hf hfs hnd ht hav
    exact (Fretboard.applyEvent_keeps prev ev k e fs hp hf hfs hnd ht hav).1
  · intro evs ev fs hp hf hfs hnd hpre hgt _ hav
    exact Fretboard.runEvents_removes k e fs evs prev ev hp hf hfs hnd hpre hgt hav

/-- Witness for C3: an entry fading since instant 0 survives a sweep at
400 ms, is removed by a reconciliation tick or a sweep at 501 ms, the
sweep guard is on while it fades, and a run sweeping at 400 then 501
removes it. -/
theorem claim_C3_witness :
    Fretboard.lookupKey (Fretboard.reconcile [((0, 0), fadingProbe)] [] 501) (0, 0) = none ∧
    Fretboard.lookupKey (Fretboard.sweep [((0, 0), fadingProbe)] 501) (0, 0) = none ∧
    (Fretboard.lookupKey ([] : Fretboard.RMap) (0, 0) = none ∧ fadingProbe.isFading = true ∧
      ∃ fs, fadingProbe.fadeStartTime = some fs ∧ 501 - fs > 500) ∧
    Fretboard.hasFading [((0, 0), fadingProbe)] = true ∧
    Fretboard.lookupKey
      (Fretboard.applyEvent [((0, 0), fadingProbe)] (Fretboard.FEvent.sweepTick 400)) (0, 0)
      = some fadingProbe ∧
    Fretboard.lookupKey
      (Fretboard.runEvents [((0, 0), fadingProbe)]
        ([Fretboard.FEvent.sweepTick 400] ++ [Fretboard.FEvent.sweepTick 501])) (0, 0)
      = none := by
  have h := claim_C3 [((0, 0), fadingProbe)] [] 501 (0, 0) fadingProbe
  refine ⟨?_, ?_, ?_, ?_, ?_, ?_⟩
  · exact h.2.2.1 0 (by decide) (by decide) (by decide) (by decide) (by decide) (by decide)
  · exact h.2.2.2.1 0 (by decide) (by decide) (by decide) (by decide) (by decide)
  · exact h.1 (by decide)
      (h.2.2.1 0 (by decide) (by decide) (by decide) (by decide) (by decide) (by decide))
  · exact h.2.2.2.2.1.mpr ⟨((0, 0), fadingProbe), by decide, by decide⟩
  · exact h.2.2.2.2.2.1 (Fretboard.FEvent.sweepTick 400) 0 (by decide) (by decide) (by decide)
      (by decide) (by decide) trivial
  · refine h.2.2.2.2.2.2 [Fretboard.FEvent.sweepTick 400] (Fretboard.FEvent.sweepTick 501) 0
      (by decide) (by decide) (by decide) (by decide) ?_ (by decide) (by decide) trivial
    intro ε hε
    rcases List.mem_singleton.mp hε with rfl
    exact ⟨by decide, trivial⟩

/-- Claim C4: a key present in the fresh active set is never removed by the
reconciliation — its entry is replaced by the fresh data with isFading
cleared on that same tick and the stored fade timestamp discarded (fresh
entries carry none) — and a non-fading entry is never removed by the
sweep. -/
theorem claim_C4 (prev cur : Fretboard.RMap) (now : Int) (k : Fretboard.Key)
    (ce : Fretboard.RenderedNote) :
    (Fretboard.lookupKey cur k = some ce →
      Fretboard.lookupKey (Fretboard.reconcile prev cur now) k =
        some { ce with isFading := false }) ∧
    (∀ (notesL : List App.Note) (c : Int) (fo : Bool),
      Fretboard.lookupKey (Fretboard.currentActivePositions notesL c fo) k = some ce →
      ce.isFading = false ∧ ce.fadeStartTime = none) ∧
    (∀ e2, Fretboard.lookupKey prev k = some e2 → e2.isFading = false →
      Fretboard.lookupKey (Fretboard.sweep prev now) k = some e2) := by
  refine ⟨?_, ?_, ?_⟩
  · exact fun hc => Fretboard.reconcile_lookup_cur prev cur now k ce hc
  · exact fun notesL c fo h => Fretboard.currentActivePositions_entry_fresh notesL c fo k ce h
  · intro e2 hp hf
    exact Fretboard.sweep_keep prev now k e2 hp (by simp [Fretboard.expired, hf])

/-- Witness for C4: the explicitly fingered probe note's entry (key (1,2))
survives reconciliation with isFading false, carries no fade timestamp
when built by currentActivePositions, and survives the sweep. -/
theorem claim_C4_witness :
    Fretboard.lookupKey
        (Fretboard.reconcile [] [((1, 2), Fretboard.mkRendered probeNote)] 0) (1, 2) =
      some { Fretboard.mkRendered probeNote with isFading := false } ∧
    ((Fretboard.mkRendered probeNote).isFading = false ∧
      (Fretboard.mkRendered probeNote).fadeStartTime = none) ∧
    Fretboard.lookupKey (Fretboard.sweep [((1, 2), Fretboard.mkRendered probeNote)] 0) (1, 2)
      = some (Fretboard.mkRendered probeNote) := by
  have h := claim_C4 [((1, 2), Fretboard.mkRendered probeNote)]
    [((1, 2), Fretboard.mkRendered probeNote)] 0 (1, 2) (Fretboard.mkRendered probeNote)
  exact ⟨(claim_C4 [] [((1, 2), Fretboard.mkRendered probeNote)] 0 (1, 2)
      (Fretboard.mkRendered probeNote)).1 (by decide),
    h.2.1 [probeNote] 2 false (by decide),
    h.2.2 (Fretboard.mkRendered probeNote) (by decide) (by decide)⟩
